import Mathlib

/-!
Verification of the lattigo linear-transform / evaluation-key core.

This file shallowly embeds the two source files of the repository
(ckks/linear_transform.go and the rlwe EvaluationKey wrapper) into Lean 4
and proves the frozen claims about them.

Modelling conventions for the Go source:

* Go slices are `List α`; a slice expression `v[a:]` or `v[:b]` is a
  bounds-checked operation that panics when the index exceeds the slice
  capacity (we take capacity = length, as holds for map values and
  freshly allocated slices); panics are modelled as `Except.error .panic`.
* `copy(dst, src)` copies `min (len dst) (len src)` elements and never
  panics.
* Go `int` is a 64-bit two's-complement machine integer; we represent its
  value as `Int` and model the bitwise AND `a & m` (for a non-negative
  mask `m`) by reducing `a` modulo `2^64` (its two's-complement bit
  pattern) and taking the `Nat` AND with `m`.
* Maps are total functions into `Option`; a missing key yields the zero
  value (for a slice-valued map: the empty list).
-/

deriving instance DecidableEq for Except

namespace LattigoModel

/-- Result of Go's bitwise AND between a 64-bit `int` value `a` and a
non-negative mask `m` (as used in `rot &= slots - 1`): the two's-complement
bit pattern of `a` is `a % 2^64`, and AND-ing with a mask below `2^63`
yields a non-negative value. -/
def goIntAnd (a : Int) (m : Nat) : Nat :=
  (a % ((2 : Int) ^ 64)).toNat &&& m

/-- Model of Go's `copy(buf[start:stop], src)`: writes
`min (stop - start) (len src)` elements of `src` into `buf` starting at
position `start`, leaving the rest of `buf` unchanged. -/
def goCopyAt (buf : List α) (start stop : Nat) (src : List α) : List α :=
  let n := min (stop - start) src.length
  buf.take start ++ src.take n ++ buf.drop (start + n)

/-- Errors of the diagonal-encoding functions: a missing diagonal
(returned as a Go `error`) or a runtime panic from a slice bounds check. -/
inductive EncError where
  | diagonalNotFound
  | panic
deriving DecidableEq, Repr

/-- Record of a call to the (external) value-embedding primitive.

Modelled from the spec: the Encoder's Embed primitive is consumed as an
opaque value-embedding operation mapping a coefficient vector of length
`2^logSlots`, a scale and a Montgomery flag into a ring element; it is not
part of the source under verification, so we model the produced ring
element injectively by the data it is a function of, using exactly the
first `2^logSlots` coefficients of the supplied vector. -/
structure EmbedCall (α : Type) where
  values : List α
  logSlots : Nat
  scale : Nat
  montgomery : Bool
deriving DecidableEq, Repr

/-- Modelled from the spec: the value-embedding primitive (the ckks
Encoder's Embed, external to the source files under src/). -/
def Embed (values : List α) (logSlots : Nat) (scale : Nat) (montgomery : Bool) :
    EmbedCall α :=
  ⟨values.take (2 ^ logSlots), logSlots, scale, montgomery⟩

/-- The ckks LinearTransformEncoder: a diagonal map (Go map with missing
keys yielding `none`) and the shared scratch buffer `values` allocated to
the encoder's maximum slot count. -/
structure LTEnc (α : Type) where
  diagonals : Int → Option (List α)
  values : List α

/-- The final slice values[:slots] handed to the embedding step (with its
bounds check), applied to the outcome of the branch on the rotation. -/
def finalSlice (slots : Nat) : Except EncError (List α) → Except EncError (List α)
  | Except.error e => Except.error e
  | Except.ok values =>
      if slots ≤ values.length then Except.ok (values.take slots)
      else Except.error EncError.panic

/-- The vector that EncodeLinearTransformDiagonal builds and passes to the
embedding step, bounds checks included; follows the source line by line:
diagonal lookup with fallback to `i - slots`, masking of `rot`, the
two-copy cyclic rotation into the scratch buffer for `rot ≠ 0` (with the
asymmetric else branch for `slots < rot`, whose slice expression
`values[slots-rot:]` has a negative index and panics), and the final
`values[:slots]` slice. -/
def buildVec (l : LTEnc α) (i rot : Int) (logSlots : Nat) :
    Except EncError (List α) :=
  let slots : Nat := 2 ^ logSlots
  let v : List α :=
    match l.diagonals i with
    | some w => w
    | none => (l.diagonals (i - (slots : Int))).getD []
  let rotN : Nat := goIntAnd rot (slots - 1)
  let step : Except EncError (List α) :=
    if rotN ≠ 0 then
      if slots ≥ rotN then
        -- copy(values[:slots-rot], v[rot:]) ; copy(values[slots-rot:], v[:rot])
        if slots - rotN ≤ l.values.length ∧ rotN ≤ v.length then
          let values1 := goCopyAt l.values 0 (slots - rotN) (v.drop rotN)
          Except.ok (goCopyAt values1 (slots - rotN) values1.length (v.take rotN))
        else Except.error EncError.panic
      else
        -- copy(values[slots-rot:], v): negative slice index, always a panic
        Except.error EncError.panic
    else
      -- values = v[:slots]
      if slots ≤ v.length then Except.ok (v.take slots)
      else Except.error EncError.panic
  -- Embed(values[:slots], ...)
  finalSlice slots step

/-- EncodeLinearTransformDiagonal from the source: builds the (possibly
rotated) diagonal vector and embeds it. -/
def encodeDiag (l : LTEnc α) (i rot : Int) (scale : Nat) (logSlots : Nat) :
    Except EncError (EmbedCall α) :=
  (buildVec l i rot logSlots).map fun values => Embed values logSlots scale true

/-- EncodeLinearTransformDiagonalNaive from the source: looks up diagonal
`i` (no fallback) and embeds it; a missing diagonal is an error. -/
def encodeNaive (l : LTEnc α) (i : Int) (scale : Nat) (logSlots : Nat) :
    Except EncError (EmbedCall α) :=
  match l.diagonals i with
  | some diag => Except.ok (Embed diag logSlots scale true)
  | none => Except.error EncError.diagonalNotFound

/-- EncodeLinearTransformDiagonalNaive with the output polynomial made
explicit: on success the output holds the embedding, on failure the
function returns before any write, so the output is returned unchanged. -/
def encodeNaiveInto (l : LTEnc α) (i : Int) (scale : Nat) (logSlots : Nat)
    (output : EmbedCall α) : Except EncError Unit × EmbedCall α :=
  match l.diagonals i with
  | some diag => (Except.ok (), Embed diag logSlots scale true)
  | none => (Except.error EncError.diagonalNotFound, output)

/-! ### The Average operator (ckks/linear_transform.go) -/

/-- The Montgomery radix used by the ring package (64-bit words). -/
def MontR : Nat := 2 ^ 64

/-- Modelled from the spec: ring.ModExp, modular exponentiation
`x^e mod q` (the source calls it to compute `n^(modulus-2) mod modulus`
via Fermat's little theorem; the ring package itself is not under src/). -/
def ModExp (x e q : Nat) : Nat := x ^ e % q

/-- Modelled from the spec: ring.MForm converts a value into Montgomery
form, i.e. multiplies it by the Montgomery radix modulo `q` (the Barrett
constant argument of the source is an implementation aid of the reduction
and does not change the computed value, so it is omitted). -/
def MForm (v q : Nat) : Nat := v * MontR % q

/-- Modelled from the spec: SubRing.MulScalarMontgomery multiplies every
coefficient of a limb by a scalar in Montgomery form, i.e. computes
`c * scalar * R^(-1) mod q` coefficient-wise (with `R^(-1)` the inverse of
the Montgomery radix, here expressed by Fermat as `R^(q-2) mod q`). -/
def MulScalarMontgomery (q : Nat) (p : List Nat) (scalar : Nat) : List Nat :=
  p.map fun c => c * scalar * ModExp MontR (q - 2) q % q

/-- One RNS sub-ring of RingQ: its prime modulus (reduction constants of
the source are implementation aids of the opaque ring provider). -/
structure SubRing where
  Modulus : Nat
deriving DecidableEq, Repr

instance : Inhabited SubRing := ⟨⟨1⟩⟩

/-- An rlwe ciphertext: its polynomials (each a list of RNS limbs, each
limb a coefficient vector), its log slot count and its level. -/
structure Ciphertext where
  Value : List (List (List Nat))
  LogSlots : Nat
  Level : Nat
deriving DecidableEq, Repr

/-- Degree of a ciphertext: number of polynomials minus one. -/
def Ciphertext.Degree (ct : Ciphertext) : Nat := ct.Value.length - 1

/-- The evaluator as consumed by Average: the RNS sub-rings of RingQ and
the (external, rlwe-level) InnerSum primitive, modelled from the spec as
an opaque function of the ciphertext, the batch size and the reduction
count. -/
structure Evaluator where
  SubRings : List SubRing
  InnerSum : Ciphertext → Nat → Nat → Ciphertext

/-- Errors of Average: the two panics of the source's precondition checks
and a bounds-check panic from slice/index expressions. -/
inductive AvgError where
  | invalidOperand
  | invalidParameter
  | panic
deriving DecidableEq, Repr

/-- The pre-multiplication loop of Average over `SubRings[:level+1]`,
translated as the sequence of in-place writes the Go loop performs:
for each `i` from `0` to `level`, limb `i` of the output polynomial is
replaced by limb `i` of the input polynomial scaled by the Montgomery-form
inverse of `n` modulo `SubRings[i].Modulus`. -/
def averageLoop (subRings : List SubRing) (level n : Nat)
    (pIn pOut : List (List Nat)) : List (List Nat) :=
  (List.range (level + 1)).foldl
    (fun acc k =>
      let s := subRings.getD k default
      let invN := MForm (ModExp n (s.Modulus - 2) s.Modulus) s.Modulus
      acc.set k (MulScalarMontgomery s.Modulus (pIn.getD k []) invN))
    pOut

/-- Average from the source: degree and batch-size precondition checks
(Go panics, modelled as errors), the per-limb pre-multiplication by
`n^(-1)` into ctOut, then InnerSum on ctOut with batch size
`2^logBatchSize` and reduction count `n`, in place. The inner bounds
check models the slice expression `SubRings[:level+1]` and the limb
indexing, which panic when a ciphertext has fewer limbs than
`level + 1`. -/
def Average (eval : Evaluator) (ctIn : Ciphertext) (logBatchSize : Nat)
    (ctOut : Ciphertext) : Except AvgError Ciphertext :=
  if ctIn.Degree ≠ 1 ∨ ctOut.Degree ≠ 1 then
    Except.error AvgError.invalidOperand
  else if ctIn.LogSlots < logBatchSize then
    Except.error AvgError.invalidParameter
  else
    let level := min ctIn.Level ctOut.Level
    let n : Nat := 2 ^ (ctIn.LogSlots - logBatchSize)
    if level + 1 ≤ eval.SubRings.length
        ∧ (∀ p ∈ ctIn.Value, level + 1 ≤ p.length)
        ∧ (∀ p ∈ ctOut.Value, level + 1 ≤ p.length) then
      let v0 := averageLoop eval.SubRings level n (ctIn.Value.getD 0 [])
        (ctOut.Value.getD 0 [])
      let v1 := averageLoop eval.SubRings level n (ctIn.Value.getD 1 [])
        (ctOut.Value.getD 1 [])
      Except.ok (eval.InnerSum { ctOut with Value := [v0, v1] }
        (2 ^ logBatchSize) n)
    else Except.error AvgError.panic

/-- Index-aware map over a list, used to state the claim-side description
of the per-limb loop. -/
def mapWithIndex (f : Nat → α → α) : Nat → List α → List α
  | _, [] => []
  | k, a :: as => f k a :: mapWithIndex f (k + 1) as

/-- The claim-side description of Average: level and reduction count as
the claim sets them, every limb index `i ≤ level` of both polynomial
components of ctIn multiplied by the Montgomery-form modular inverse of
`n` (computed as `n^(modulus-2) mod modulus` then converted to Montgomery
form), written into ctOut, then InnerSum on the result with batch size
`2^logBatchSize` and reduction count `n`. -/
def averageSpec (eval : Evaluator) (ctIn : Ciphertext) (logBatchSize : Nat)
    (ctOut : Ciphertext) : Ciphertext :=
  let level := min ctIn.Level ctOut.Level
  let n : Nat := 2 ^ (ctIn.LogSlots - logBatchSize)
  let scaled : Ciphertext :=
    { ctOut with
      Value :=
        List.zipWith
          (fun pIn pOut =>
            mapWithIndex
              (fun k row =>
                if k ≤ level then
                  let q := (eval.SubRings.getD k default).Modulus
                  MulScalarMontgomery q (pIn.getD k [])
                    (MForm (ModExp n (q - 2) q) q)
                else row)
              0 pOut)
          ctIn.Value ctOut.Value }
  eval.InnerSum scaled (2 ^ logBatchSize) n

/-! ### The EvaluationKey wire-format contract (rlwe) -/

/-- Serialization boundary errors of the wire-format contract. -/
inductive SerErr where
  | bufferTooSmall
  | malformedData
deriving DecidableEq, Repr

/-- Modelled from the spec: a GadgetCiphertext is consumed as an opaque
two-dimensional decomposition whose serialized form is its own encoding
with a shape prefix from which the dimensions are re-derived on read; we
model its payload as the flat list of coefficient words and its encoding
as the payload preceded by its length. -/
structure GadgetCiphertext where
  coeffs : List Nat
deriving DecidableEq, Repr

/-- Structural equality of GadgetCiphertexts (coefficient-wise). -/
def GadgetCiphertext.Equals (c other : GadgetCiphertext) : Bool :=
  c.coeffs == other.coeffs

/-- Modelled from the spec: serialized size of a GadgetCiphertext (its
shape word followed by its payload). -/
def GadgetCiphertext.MarshalBinarySize (c : GadgetCiphertext) : Nat :=
  1 + c.coeffs.length

/-- Modelled from the spec: GadgetCiphertext.Read encodes the object into
a preallocated buffer, failing when the buffer is too small, and returns
the number of words written; words of the buffer past the encoding are
left unchanged. -/
def GadgetCiphertext.Read (c : GadgetCiphertext) (data : List Nat) :
    Except SerErr (Nat × List Nat) :=
  if data.length < c.MarshalBinarySize then Except.error SerErr.bufferTooSmall
  else
    Except.ok (c.MarshalBinarySize,
      c.coeffs.length :: c.coeffs ++ data.drop c.MarshalBinarySize)

/-- Modelled from the spec: GadgetCiphertext.Write decodes an encoding
produced by Read, re-deriving the dimensions from the prefix of the
buffer and failing with a malformed-data error on truncated input. -/
def GadgetCiphertext.Write (data : List Nat) :
    Except SerErr (Nat × GadgetCiphertext) :=
  match data with
  | [] => Except.error SerErr.malformedData
  | len :: rest =>
      if rest.length < len then Except.error SerErr.malformedData
      else Except.ok (1 + len, ⟨rest.take len⟩)

/-- EvaluationKey from the source: a thin wrapper owning one
GadgetCiphertext. -/
structure EvaluationKey where
  GadgetCiphertext : GadgetCiphertext
deriving DecidableEq, Repr

/-- Equals from the source: delegates to the wrapped GadgetCiphertext. -/
def EvaluationKey.Equals (evk other : EvaluationKey) : Bool :=
  evk.GadgetCiphertext.Equals other.GadgetCiphertext

/-- MarshalBinarySize from the source: delegates. -/
def EvaluationKey.MarshalBinarySize (evk : EvaluationKey) : Nat :=
  evk.GadgetCiphertext.MarshalBinarySize

/-- Read from the source: delegates. -/
def EvaluationKey.Read (evk : EvaluationKey) (data : List Nat) :
    Except SerErr (Nat × List Nat) :=
  evk.GadgetCiphertext.Read data

/-- MarshalBinary from the source: allocates a zero buffer of exactly
MarshalBinarySize words and encodes the object into it with Read. -/
def EvaluationKey.MarshalBinary (evk : EvaluationKey) :
    Except SerErr (List Nat) :=
  match evk.Read (List.replicate evk.MarshalBinarySize 0) with
  | Except.ok (_, data) => Except.ok data
  | Except.error e => Except.error e

/-- Write from the source: delegates to the wrapped GadgetCiphertext,
repopulating the receiver. -/
def EvaluationKey.Write (_evk : EvaluationKey) (data : List Nat) :
    Except SerErr (Nat × EvaluationKey) :=
  match GadgetCiphertext.Write data with
  | Except.ok (n, gc) => Except.ok (n, ⟨gc⟩)
  | Except.error e => Except.error e

/-- UnmarshalBinary from the source: decodes via Write. -/
def EvaluationKey.UnmarshalBinary (evk : EvaluationKey) (data : List Nat) :
    Except SerErr EvaluationKey :=
  match evk.Write data with
  | Except.ok (_, evk2) => Except.ok evk2
  | Except.error e => Except.error e

/-! ### Concrete instances used to witness the theorems -/

/-- An encoder holding the single diagonal 0 ↦ [1, 2, 3, 4], scratch of
four entries. -/
def lW : LTEnc Nat :=
  ⟨fun j => if j = 0 then some [1, 2, 3, 4] else none, [9, 9, 9, 9]⟩

/-- An encoder whose diagonal 0 is shorter than the slot count used in
the calls below (one entry against two slots). -/
def lC5 : LTEnc Nat :=
  ⟨fun j => if j = 0 then some [5] else none, [0, 0]⟩

/-- An encoder holding only the alias representative -4 of diagonal 0
at four slots. -/
def lC6 : LTEnc Nat :=
  ⟨fun j => if j = -4 then some [1, 2, 3, 4] else none, [0, 0, 0, 0]⟩

/-- An encoder with an empty diagonal mapping. -/
def lC10 : LTEnc Nat := ⟨fun _ => none, [7, 7]⟩

/-- One-subring evaluator over the prime 5 whose InnerSum primitive is
the identity on the ciphertext (its value is irrelevant to the claims,
which only constrain the arguments Average passes to it). -/
def evalW : Evaluator := ⟨[⟨5⟩], fun ct _ _ => ct⟩

/-- A degree-1 ciphertext with a single limb per component. -/
def ctW : Ciphertext := ⟨[[[1, 2]], [[3, 4]]], 1, 0⟩

/-- A second degree-1 ciphertext, the output operand. -/
def ctW2 : Ciphertext := ⟨[[[0, 0]], [[0, 0]]], 1, 0⟩

/-- A degree-2 ciphertext (three polynomial components). -/
def ctDeg2 : Ciphertext := ⟨[[[1]], [[2]], [[3]]], 1, 0⟩

/-! ### Helper lemmas on the Go bitmask -/

lemma toNat_emod_nat (x : Int) (hx : 0 ≤ x) (m : Nat) :
    x.toNat % m = (x % (m : Int)).toNat := by
  obtain ⟨n, rfl⟩ := Int.eq_ofNat_of_zero_le hx
  rw [← Int.natCast_mod, Int.toNat_natCast, Int.toNat_natCast]

lemma goIntAnd_mask (r : Int) (k : Nat) (hk : k ≤ 64) :
    goIntAnd r (2 ^ k - 1) = (r % ((2 ^ k : Nat) : Int)).toNat := by
  unfold goIntAnd
  rw [Nat.and_pow_two_sub_one_eq_mod]
  rw [toNat_emod_nat _ (Int.emod_nonneg r (by positivity)) (2 ^ k)]
  congr 1
  push_cast
  exact Int.emod_emod_of_dvd r (pow_dvd_pow 2 hk)

lemma goIntAnd_mask_lt (r : Int) (k : Nat) (hk : k ≤ 64) :
    goIntAnd r (2 ^ k - 1) < 2 ^ k := by
  rw [goIntAnd_mask r k hk]
  have h2 : (0 : Int) < ((2 ^ k : Nat) : Int) := by positivity
  have := Int.emod_lt_of_pos r h2
  omega

lemma goIntAnd_mask_cast (r : Int) (k : Nat) (hk : k ≤ 64) :
    (goIntAnd r (2 ^ k - 1) : Int) = r % ((2 ^ k : Nat) : Int) := by
  rw [goIntAnd_mask r k hk]
  exact Int.toNat_of_nonneg (Int.emod_nonneg r (by positivity))

/-- C8: in EncodeLinearTransformDiagonal, for every integer rot (negative
values included), the masked value rot & (slots - 1) equals rot mod slots
and lies in [0, slots) (it is a natural number below slots); consequently
the guard slots >= rot of the copy step holds after masking even when
rot is non-zero, so the asymmetric else branch (the slots < rot case) is
never executed. The bound on logSlots is the range in which the Go
expression 1 << logSlots is a positive 64-bit int. -/
theorem mask_rot_eq_mod (rot : Int) (logSlots : Nat) (hls : logSlots ≤ 62) :
    (goIntAnd rot (2 ^ logSlots - 1) : Int) = rot % ((2 ^ logSlots : Nat) : Int)
      ∧ goIntAnd rot (2 ^ logSlots - 1) < 2 ^ logSlots
      ∧ (goIntAnd rot (2 ^ logSlots - 1) ≠ 0 →
          ¬ 2 ^ logSlots < goIntAnd rot (2 ^ logSlots - 1)) := by
  refine ⟨goIntAnd_mask_cast rot logSlots (by omega),
    goIntAnd_mask_lt rot logSlots (by omega), fun _ h => ?_⟩
  exact absurd (goIntAnd_mask_lt rot logSlots (by omega)) (by omega)

/-- Witness for C8 at rot = -5, logSlots = 2: the mask yields 3 = -5 mod 4. -/
theorem mask_rot_eq_mod_witness :
    (goIntAnd (-5) (2 ^ 2 - 1) : Int) = -5 % ((2 ^ 2 : Nat) : Int)
      ∧ goIntAnd (-5) (2 ^ 2 - 1) < 2 ^ 2
      ∧ (goIntAnd (-5) (2 ^ 2 - 1) ≠ 0 →
          ¬ 2 ^ 2 < goIntAnd (-5) (2 ^ 2 - 1)) :=
  mask_rot_eq_mod (-5) 2 (by omega)

/-- C1: for a diagonal mapping binding index i to a vector v of length at
least slots = 2^logSlots (with the encoder's scratch buffer of at least
slots entries, as the constructor allocates, and logSlots in the range
where the Go slot count is a positive int), and every rotation amount rot,
the vector EncodeLinearTransformDiagonal builds before the embedding step
satisfies output[p] = v[(p + rot mod slots) mod slots] for every position
p below slots. -/
theorem encode_diag_rotation_correct {α : Type} (l : LTEnc α) (i rot : Int)
    (logSlots : Nat) (v : List α)
    (hls : logSlots ≤ 62)
    (hd : l.diagonals i = some v)
    (hv : 2 ^ logSlots ≤ v.length)
    (hs : 2 ^ logSlots ≤ l.values.length)
    (p : Nat) (hp : p < 2 ^ logSlots) :
    ∃ out, buildVec l i rot logSlots = Except.ok out ∧
      out[p]? = v[(p + (rot % ((2 ^ logSlots : Nat) : Int)).toNat) % 2 ^ logSlots]? := by
  simp only [buildVec, hd]
  rw [← goIntAnd_mask rot logSlots (by omega)]
  have hlt := goIntAnd_mask_lt rot logSlots (by omega)
  set slots := 2 ^ logSlots with hslots
  set rotN := goIntAnd rot (slots - 1) with hrotN
  clear_value slots rotN
  by_cases hr : rotN = 0
  · rw [if_neg (not_not_intro hr), if_pos hv]
    have hlen : slots ≤ (v.take slots).length := by
      simp [List.length_take]; omega
    simp only [finalSlice]
    rw [if_pos hlen]
    refine ⟨_, rfl, ?_⟩
    rw [List.take_take, min_self, List.getElem?_take_of_lt hp, hr,
      Nat.add_zero, Nat.mod_eq_of_lt hp]
  · rw [if_pos hr, if_pos (le_of_lt hlt), if_pos ⟨by omega, by omega⟩]
    have hrp : 0 < rotN := Nat.pos_of_ne_zero hr
    -- the first copy: values1 = head of the rotated vector ++ tail of scratch
    have hv1 : goCopyAt l.values 0 (slots - rotN) (v.drop rotN)
        = (v.drop rotN).take (slots - rotN) ++ l.values.drop (slots - rotN) := by
      simp only [goCopyAt, List.length_drop, Nat.sub_zero]
      rw [Nat.min_eq_left (by omega), List.take_zero, List.nil_append,
        Nat.zero_add]
    rw [hv1]
    have hlA : ((v.drop rotN).take (slots - rotN)).length = slots - rotN := by
      simp [List.length_take, List.length_drop]; omega
    have hlen1 : ((v.drop rotN).take (slots - rotN)
        ++ l.values.drop (slots - rotN)).length = l.values.length := by
      simp only [List.length_append, List.length_drop, hlA]; omega
    -- the second copy appends the wrapped-around head of the diagonal
    have hv2 : goCopyAt ((v.drop rotN).take (slots - rotN)
          ++ l.values.drop (slots - rotN)) (slots - rotN)
          ((v.drop rotN).take (slots - rotN) ++ l.values.drop (slots - rotN)).length
          (v.take rotN)
        = (v.drop rotN).take (slots - rotN) ++ v.take rotN
          ++ l.values.drop slots := by
      simp only [goCopyAt, hlen1, List.length_take]
      have hmin : min (l.values.length - (slots - rotN)) (min rotN v.length)
          = rotN := by omega
      rw [hmin, List.take_left' hlA, List.take_take, min_self]
      congr 1
      rw [List.drop_append_eq_append_drop, hlA,
        List.drop_eq_nil_of_le (by omega :
          ((v.drop rotN).take (slots - rotN)).length ≤ slots - rotN + rotN),
        List.nil_append, List.drop_drop]
      congr 1
      omega
    rw [hv2]
    have hlen2 : ((v.drop rotN).take (slots - rotN) ++ v.take rotN
        ++ l.values.drop slots).length = l.values.length := by
      simp only [List.length_append, List.length_drop, List.length_take, hlA]
      omega
    simp only [finalSlice]
    rw [if_pos (by omega : slots ≤ ((v.drop rotN).take (slots - rotN)
      ++ v.take rotN ++ l.values.drop slots).length)]
    refine ⟨_, rfl, ?_⟩
    have htake : ((v.drop rotN).take (slots - rotN) ++ v.take rotN
        ++ l.values.drop slots).take slots
        = (v.drop rotN).take (slots - rotN) ++ v.take rotN :=
      List.take_left' (by simp only [List.length_append, hlA, List.length_take]; omega)
    rw [htake]
    by_cases hpc : p < slots - rotN
    · rw [List.getElem?_append_left (by omega : p
        < ((v.drop rotN).take (slots - rotN)).length)]
      rw [List.getElem?_take_of_lt hpc, List.getElem?_drop]
      have hmod : (p + rotN) % slots = rotN + p := by
        rw [Nat.mod_eq_of_lt (by omega)]; omega
      rw [hmod]
    · rw [List.getElem?_append_right (by omega :
        ((v.drop rotN).take (slots - rotN)).length ≤ p)]
      rw [hlA, List.getElem?_take_of_lt (by omega : p - (slots - rotN) < rotN)]
      have hmod : (p + rotN) % slots = p - (slots - rotN) := by
        rw [Nat.mod_eq_sub_mod (by omega), Nat.mod_eq_of_lt (by omega)]
        omega
      rw [hmod]

/-- Witness for C1: diagonal [1, 2, 3, 4], rot = 1, four slots, position 0. -/
theorem encode_diag_rotation_correct_witness :
    ∃ out, buildVec lW 0 1 2 = Except.ok out ∧
      out[0]? = [1, 2, 3, 4][(0 + ((1 : Int) % ((2 ^ 2 : Nat) : Int)).toNat) % 2 ^ 2]? :=
  encode_diag_rotation_correct lW 0 1 2 [1, 2, 3, 4] (by omega) (by decide)
    (by decide) (by decide) 0 (by decide)

/-- Counterexample to C5 as stated: for a diagonal bound to a vector
shorter than the slot count, EncodeLinearTransformDiagonalNaive embeds
the short vector while EncodeLinearTransformDiagonal with rot = 0 panics
slicing it to slots entries, so the two disagree. -/
theorem rot_zero_vs_naive_counterexample :
    lC5.diagonals 0 = some [5]
      ∧ encodeDiag lC5 0 0 0 1 ≠ encodeNaive lC5 0 0 1 := by decide

/-- C5 as amended: when the vector bound to diagonal i has at least
slots = 2^logSlots entries, EncodeLinearTransformDiagonal with rotation
amount 0 produces the same output as EncodeLinearTransformDiagonalNaive
at the same i, scale and logSlots. -/
theorem rot_zero_eq_naive {α : Type} (l : LTEnc α) (i : Int)
    (scale logSlots : Nat) (d : List α)
    (hd : l.diagonals i = some d) (hlen : 2 ^ logSlots ≤ d.length) :
    encodeDiag l i 0 scale logSlots = encodeNaive l i scale logSlots := by
  have h0 : goIntAnd 0 (2 ^ logSlots - 1) = 0 := by
    simp [goIntAnd]
  simp only [encodeDiag, buildVec, encodeNaive, hd, h0]
  rw [if_neg (by omega : ¬ (0 : Nat) ≠ 0), if_pos hlen]
  simp only [finalSlice]
  rw [if_pos (by simp only [List.length_take]; omega
    : 2 ^ logSlots ≤ (d.take (2 ^ logSlots)).length)]
  simp [Except.map, Embed, List.take_take]

/-- Witness for the amended C5 at diagonal [1, 2, 3, 4] and four slots. -/
theorem rot_zero_eq_naive_witness :
    encodeDiag lW 0 0 3 2 = encodeNaive lW 0 3 2 :=
  rot_zero_eq_naive lW 0 3 2 [1, 2, 3, 4] (by decide) (by decide)

/-- C6: for a mapping containing diagonal i - slots but not i,
EncodeLinearTransformDiagonal at i produces the same result as at
i - slots, for every rotation amount, scale and logSlots. -/
theorem encode_diag_alias {α : Type} (l : LTEnc α) (i rot : Int)
    (scale logSlots : Nat) (w : List α)
    (hi : l.diagonals i = none)
    (hw : l.diagonals (i - ((2 ^ logSlots : Nat) : Int)) = some w) :
    encodeDiag l i rot scale logSlots
      = encodeDiag l (i - ((2 ^ logSlots : Nat) : Int)) rot scale logSlots := by
  simp only [encodeDiag, buildVec, hi, hw, Option.getD_some]

/-- Witness for C6: only the representative -4 of diagonal 0 is stored. -/
theorem encode_diag_alias_witness :
    encodeDiag lC6 0 1 0 2
      = encodeDiag lC6 (0 - ((2 ^ 2 : Nat) : Int)) 1 0 2 :=
  encode_diag_alias lC6 0 1 0 2 [1, 2, 3, 4] (by decide) (by decide)

/-- C7: EncodeLinearTransformDiagonalNaive on an index absent from the
mapping fails with the missing-diagonal error and returns the output
untouched, whatever the rest of the mapping holds (no alias fallback). -/
theorem encode_naive_missing {α : Type} (l : LTEnc α) (i : Int)
    (scale logSlots : Nat) (output : EmbedCall α)
    (hi : l.diagonals i = none) :
    encodeNaiveInto l i scale logSlots output
      = (Except.error EncError.diagonalNotFound, output) := by
  simp only [encodeNaiveInto, hi]

/-- Witness for C7 at the absent diagonal 5. -/
theorem encode_naive_missing_witness :
    encodeNaiveInto lW 5 0 2 ⟨[0], 2, 3, true⟩
      = (Except.error EncError.diagonalNotFound, ⟨[0], 2, 3, true⟩) :=
  encode_naive_missing lW 5 0 2 ⟨[0], 2, 3, true⟩ (by decide)

/-- Counterexample to C10 as stated: with both diagonal 0 and its alias
absent and rot mod slots = 1 ≠ 0, the claim asserts success, but the
function panics (the copy step slices the absent nil vector at a positive
index). -/
theorem missing_diag_counterexample :
    lC10.diagonals 0 = none
      ∧ lC10.diagonals (0 - ((2 ^ 1 : Nat) : Int)) = none
      ∧ goIntAnd 1 (2 ^ 1 - 1) ≠ 0
      ∧ encodeDiag lC10 0 1 0 1 = Except.error EncError.panic := by decide

/-- C10 as amended: when neither i nor i - slots is present,
EncodeLinearTransformDiagonal never reports a missing diagonal; instead it
panics for every rotation amount — for rot mod slots = 0 by slicing the
absent (nil) vector to slots entries, and for rot mod slots ≠ 0 already by
slicing the absent vector at the positive masked rotation index inside the
copy step (not, as the claim stated, by copying nothing and succeeding). -/
theorem missing_diag_panics {α : Type} (l : LTEnc α) (i rot : Int)
    (scale logSlots : Nat)
    (hi : l.diagonals i = none)
    (hi2 : l.diagonals (i - ((2 ^ logSlots : Nat) : Int)) = none) :
    encodeDiag l i rot scale logSlots = Except.error EncError.panic := by
  have hpos : 0 < 2 ^ logSlots := Nat.pos_pow_of_pos logSlots (by omega)
  simp only [encodeDiag, buildVec, hi, hi2, Option.getD_none]
  by_cases hr : goIntAnd rot (2 ^ logSlots - 1) = 0
  · rw [hr, if_neg (by omega : ¬ (0 : Nat) ≠ 0),
      if_neg (by simp only [List.length_nil]; omega
        : ¬ 2 ^ logSlots ≤ List.length ([] : List α))]
    rfl
  · rw [if_pos hr]
    by_cases hge : 2 ^ logSlots ≥ goIntAnd rot (2 ^ logSlots - 1)
    · rw [if_pos hge,
        if_neg (by simp only [List.length_nil]; omega
          : ¬ (2 ^ logSlots - goIntAnd rot (2 ^ logSlots - 1) ≤ l.values.length
              ∧ goIntAnd rot (2 ^ logSlots - 1) ≤ List.length ([] : List α)))]
      rfl
    · rw [if_neg hge]
      rfl

/-- Witness for the amended C10 at the empty mapping, rot = 3, two slots. -/
theorem missing_diag_panics_witness :
    encodeDiag lC10 0 3 0 1 = Except.error EncError.panic :=
  missing_diag_panics lC10 0 3 0 1 (by decide) (by decide)

/-! ### The Average claims -/

lemma foldl_set_length (g : Nat → α) (ks : List Nat) (l : List α) :
    (ks.foldl (fun acc k => acc.set k (g k)) l).length = l.length := by
  induction ks generalizing l with
  | nil => rfl
  | cons k ks ih => simp [List.foldl_cons, ih, List.length_set]

lemma foldl_set_getElem? (g : Nat → α) (m : Nat) (l : List α) (p : Nat) :
    ((List.range m).foldl (fun acc k => acc.set k (g k)) l)[p]?
      = if p < m then l[p]?.map (fun _ => g p) else l[p]? := by
  induction m with
  | zero => simp
  | succ m ih =>
    rw [List.range_succ, List.foldl_append, List.foldl_cons, List.foldl_nil,
      List.getElem?_set, foldl_set_length, ih]
    by_cases hmp : m = p
    · subst hmp
      rcases Nat.lt_or_ge m l.length with hpl | hpl
      · rw [if_pos rfl, if_pos hpl, if_pos (Nat.lt_succ_self m),
          List.getElem?_eq_getElem hpl]
        rfl
      · rw [if_pos rfl, if_neg (by omega), if_pos (Nat.lt_succ_self m),
          List.getElem?_eq_none hpl]
        rfl
    · rw [if_neg hmp]
      by_cases hp : p < m
      · rw [if_pos hp, if_pos (by omega)]
      · rw [if_neg hp, if_neg (by omega)]

lemma mapWithIndex_getElem? (f : Nat → α → α) (j : Nat) (l : List α) (p : Nat) :
    (mapWithIndex f j l)[p]? = l[p]?.map (f (j + p)) := by
  induction l generalizing j p with
  | nil => simp [mapWithIndex]
  | cons a as ih =>
    cases p with
    | zero => simp [mapWithIndex]
    | succ p =>
      simp only [mapWithIndex, List.getElem?_cons_succ, ih (j + 1) p]
      rw [show j + 1 + p = j + (p + 1) from by omega]

/-- The in-place per-limb loop equals the index-aware functional map used
by the claim-side description. -/
lemma averageLoop_eq (subRings : List SubRing) (level n : Nat)
    (pIn pOut : List (List Nat)) :
    averageLoop subRings level n pIn pOut
      = mapWithIndex (fun k row =>
          if k ≤ level then
            MulScalarMontgomery (subRings.getD k default).Modulus (pIn.getD k [])
              (MForm (ModExp n ((subRings.getD k default).Modulus - 2)
                  (subRings.getD k default).Modulus)
                (subRings.getD k default).Modulus)
          else row) 0 pOut := by
  apply List.ext_getElem?
  intro p
  simp only [averageLoop]
  rw [foldl_set_getElem?
    (fun k => MulScalarMontgomery (subRings.getD k default).Modulus (pIn.getD k [])
      (MForm (ModExp n ((subRings.getD k default).Modulus - 2)
          (subRings.getD k default).Modulus)
        (subRings.getD k default).Modulus)),
    mapWithIndex_getElem?, Nat.zero_add]
  by_cases hpl : p < level + 1
  · rw [if_pos hpl]
    cases hrow : pOut[p]? with
    | none => rfl
    | some row =>
        simp only [Option.map_some']
        rw [if_pos (by omega : p ≤ level)]
  · rw [if_neg hpl]
    cases hrow : pOut[p]? with
    | none => rfl
    | some row =>
        simp only [Option.map_some']
        rw [if_neg (by omega : ¬ p ≤ level)]

/-- C2: for degree-1 operands with logBatchSize at most ctIn's log slot
count (and ciphertexts carrying at least level + 1 limbs over at least as
many sub-rings, as any well-formed ciphertext at that level does), Average
computes level = min of the levels, n = 2^(LogSlots - logBatchSize),
multiplies every limb i ≤ level of both polynomial components of ctIn by
the Montgomery-form inverse of n modulo that limb's prime (Fermat
exponentiation then Montgomery conversion), writes the result into ctOut
and hands it to InnerSum with batch size 2^logBatchSize and reduction
count n, in place. -/
theorem average_correct (eval : Evaluator) (ctIn : Ciphertext)
    (logBatchSize : Nat) (ctOut : Ciphertext)
    (h1 : ctIn.Degree = 1) (h2 : ctOut.Degree = 1)
    (hb : logBatchSize ≤ ctIn.LogSlots)
    (hsr : min ctIn.Level ctOut.Level + 1 ≤ eval.SubRings.length)
    (hin : ∀ p ∈ ctIn.Value, min ctIn.Level ctOut.Level + 1 ≤ p.length)
    (hout : ∀ p ∈ ctOut.Value, min ctIn.Level ctOut.Level + 1 ≤ p.length) :
    Average eval ctIn logBatchSize ctOut
      = Except.ok (averageSpec eval ctIn logBatchSize ctOut) := by
  have hlenIn : ctIn.Value.length = 2 := by
    unfold Ciphertext.Degree at h1
    have : ctIn.Value ≠ [] := by
      intro h
      rw [h] at h1
      simp at h1
    have : 0 < ctIn.Value.length := List.length_pos.mpr this
    omega
  have hlenOut : ctOut.Value.length = 2 := by
    unfold Ciphertext.Degree at h2
    have : ctOut.Value ≠ [] := by
      intro h
      rw [h] at h2
      simp at h2
    have : 0 < ctOut.Value.length := List.length_pos.mpr this
    omega
  obtain ⟨a0, a1, hIn⟩ := List.length_eq_two.mp hlenIn
  obtain ⟨b0, b1, hOut⟩ := List.length_eq_two.mp hlenOut
  unfold Average averageSpec
  rw [if_neg (by simp [h1, h2]), if_neg (by omega), if_pos ⟨hsr, hin, hout⟩]
  rw [hIn, hOut]
  simp only [List.zipWith, List.getD, List.getElem?_cons_zero,
    List.getElem?_cons_succ, Option.getD_some, averageLoop_eq,
    List.get?_cons_zero, List.get?_cons_succ]

/-- Witness for C2 on a one-limb pair of degree-1 ciphertexts over the
prime 5. -/
theorem average_correct_witness :
    Average evalW ctW 0 ctW2 = Except.ok (averageSpec evalW ctW 0 ctW2) :=
  average_correct evalW ctW 0 ctW2 (by decide) (by decide) (by decide)
    (by decide) (by decide) (by decide)

/-- C3: Average checks its preconditions before touching ctOut: a
non-degree-1 operand fails with the invalid-operand panic, and (for
degree-1 operands) a logBatchSize above ctIn's log slot count fails with
the invalid-parameter panic; in both cases the function aborts without
producing (mutating) any output ciphertext. -/
theorem average_preconditions (eval : Evaluator) (ctIn : Ciphertext)
    (logBatchSize : Nat) (ctOut : Ciphertext) :
    (ctIn.Degree ≠ 1 ∨ ctOut.Degree ≠ 1 →
        Average eval ctIn logBatchSize ctOut
          = Except.error AvgError.invalidOperand)
      ∧ (ctIn.Degree = 1 → ctOut.Degree = 1 → ctIn.LogSlots < logBatchSize →
          Average eval ctIn logBatchSize ctOut
            = Except.error AvgError.invalidParameter) := by
  constructor
  · intro h
    unfold Average
    rw [if_pos h]
  · intro h1 h2 h3
    unfold Average
    rw [if_neg (by simp [h1, h2]), if_pos h3]

/-- Witness for C3: a degree-2 input fails as invalid operand; a batch
size above the slot count fails as invalid parameter. -/
theorem average_preconditions_witness :
    Average evalW ctDeg2 0 ctW2 = Except.error AvgError.invalidOperand
      ∧ Average evalW ctW 5 ctW2 = Except.error AvgError.invalidParameter :=
  ⟨(average_preconditions evalW ctDeg2 0 ctW2).1 (by decide),
    (average_preconditions evalW ctW 5 ctW2).2 (by decide) (by decide)
      (by decide)⟩

/-- C9: for a prime limb modulus q and a reduction count n coprime to q,
the scalar invN = MForm(ModExp(n, q-2, q), q) computed by Average
satisfies n * invN ≡ MForm(1, q) (mod q): it is the Montgomery
representation of the inverse of n. -/
theorem invN_montgomery_correct (q n : Nat) (hq : q.Prime) (hnd : ¬ q ∣ n) :
    (n * MForm (ModExp n (q - 2) q) q) % q = MForm 1 q := by
  have h2 : 2 ≤ q := hq.two_le
  have hco : n.Coprime q := (Nat.Prime.coprime_iff_not_dvd hq |>.mpr hnd).symm
  have hferm : n ^ (q - 1) ≡ 1 [MOD q] := by
    have h := Nat.ModEq.pow_totient hco
    rwa [Nat.totient_prime hq] at h
  simp only [MForm, ModExp]
  show n * (n ^ (q - 2) % q * MontR % q) ≡ 1 * MontR [MOD q]
  calc n * (n ^ (q - 2) % q * MontR % q)
      ≡ n * (n ^ (q - 2) % q * MontR) [MOD q] :=
        (Nat.mod_modEq _ q).mul_left n
    _ ≡ n * (n ^ (q - 2) * MontR) [MOD q] :=
        (((Nat.mod_modEq _ q).mul_right MontR).mul_left n)
    _ = n ^ (q - 1) * MontR := by
        rw [← mul_assoc, ← pow_succ']
        congr 2
        omega
    _ ≡ 1 * MontR [MOD q] := hferm.mul_right MontR

/-- Witness for C9 at q = 5, n = 2. -/
theorem invN_montgomery_correct_witness :
    (2 * MForm (ModExp 2 (5 - 2) 5) 5) % 5 = MForm 1 5 :=
  invN_montgomery_correct 5 2 (by norm_num) (by decide)

/-! ### The EvaluationKey round-trip claim -/

/-- C4: for every EvaluationKey, deserializing the bytes produced by
serializing it (UnmarshalBinary of MarshalBinary, on any receiver) yields
an EvaluationKey equal to the original under Equals. -/
theorem evk_marshal_roundtrip (evk r : EvaluationKey) :
    ∃ data evk2, evk.MarshalBinary = Except.ok data
      ∧ r.UnmarshalBinary data = Except.ok evk2
      ∧ evk2.Equals evk = true := by
  refine ⟨evk.GadgetCiphertext.coeffs.length :: evk.GadgetCiphertext.coeffs,
    ⟨⟨evk.GadgetCiphertext.coeffs⟩⟩, ?_, ?_, ?_⟩
  · simp only [EvaluationKey.MarshalBinary, EvaluationKey.Read,
      EvaluationKey.MarshalBinarySize, GadgetCiphertext.Read,
      GadgetCiphertext.MarshalBinarySize, List.length_replicate,
      lt_self_iff_false, if_false]
    rw [List.drop_eq_nil_of_le (by simp), List.append_nil]
  · simp only [EvaluationKey.UnmarshalBinary, EvaluationKey.Write,
      GadgetCiphertext.Write, lt_self_iff_false, if_false,
      List.take_length]
  · simp [EvaluationKey.Equals, GadgetCiphertext.Equals]

end LattigoModel
